import Mathlib

/-!
Shallow embedding of the publish/verify core of the api-server repository
(`getMissingFilesForRootFiles`, `getMissingFilesRecursive`, `readFileWithRefs`,
`difference` in the TypeScript source).

Modelling choices, in the order the source introduces them:

* A file name is a `String`; the store is flat, so the directory is a
  `Store`: the one-time `readdir` listing plus a content oracle.  The
  traversal only ever consults the content of names it actually reads, so
  the oracle is total.
* `readFileWithRefs` does `JSON.parse(raw)` and then takes
  `Object.values(content.refs) || []`.  We abstract the raw JSON text into
  `Content`: either the ordered list of reference values the parse would
  yield (`manifest refs`), or `malformed raw` when `JSON.parse` throws.
  The thrown `SyntaxError` is a function of the raw text alone — it does
  not mention the file name — which `RErr.parse raw` mirrors.
* A JavaScript `Set` iterates in insertion order; `add` appends a fresh
  element and leaves a present one where it is, `delete` removes it.  We
  model such sets as duplicate-free `List String` with `insertOnce`,
  `List.erase` and `difference` (the latter transcribed from the source's
  own `difference` helper).
* The recursion guard `if (level > 10) throw` bounds the depth, so the
  Lean function recurses structurally on `fuel = 11 - level`; the fuel-0
  branch is unreachable whenever `fuel = 11 - level` (the level guard
  fires first) and returns the same error.
* Reads are dispatched in chunks of 50 (`chunkArrayInGroups`) only to
  bound concurrency; chunks are processed in order and `Promise.all`
  preserves order inside a chunk, so the observable behaviour is the
  sequential left-to-right read that `collectRefs` performs.  Instead of
  the numeric `stats.readFiles` counter we record the list of file names
  read, in read order.
* Filesystem mutations (`renameAsync`, `unlinkAsync`) are recorded as an
  ordered list of issued `Action`s; the source throws any resolver error
  before the first mutation is issued, so an erroneous run issues none.
-/

namespace ApiServer

/-- Parse result of a stored file's content: the ordered list of values of
its `refs` mapping, or the raw text on which `JSON.parse` throws. -/
inductive Content where
  | manifest (refs : List String)
  | malformed (raw : String)
deriving DecidableEq, Repr

/-- The flat directory: the one-time `readdir` listing and the content of
each name (consulted only for names the traversal reads). -/
structure Store where
  listing : List String
  content : String → Content

/-- Errors thrown by the traversal: the depth guard's
`Error("Too deep recursion while checking for missing files.")` and the
`SyntaxError` of `JSON.parse`, which carries only the offending text. -/
inductive RErr where
  | tooDeep
  | parse (raw : String)
deriving DecidableEq, Repr

/-- A filesystem mutation issued by the save-parameter handling. -/
inductive Action where
  | rename (oldName newName : String)
  | delete (name : String)
deriving DecidableEq, Repr

deriving instance DecidableEq for Except

/-- `fileName.endsWith(suffix)`, stated on the character lists of the two
strings: `post` is a suffix of `s`.  (The library's `String.endsWith` is
extensionally the same test but is opaque to kernel evaluation.) -/
def endsWith (s post : String) : Bool :=
  decide (post.data = s.data.drop (s.data.length - post.data.length))

/-- `Set.add`: append if absent, keep the list unchanged (and the element
at its old position) if present. -/
def insertOnce (l : List String) (x : String) : List String :=
  if x ∈ l then l else l ++ [x]

/-- Add every element of `xs`, left to right, with `Set.add` semantics. -/
def insertAll (l : List String) (xs : List String) : List String :=
  xs.foldl insertOnce l

/-- `new Set(xs)`: first-occurrence order, duplicates dropped. -/
def dedupList (xs : List String) : List String :=
  insertAll [] xs

/-- The source's `difference`: copy `a`, then `delete` each element of `b`. -/
def difference (a b : List String) : List String :=
  b.foldl (fun acc x => acc.erase x) a

/-- The result record of `getMissingFilesRecursive`. -/
structure MissingFilesResult where
  missingFiles : List String
  referencedFiles : List String
deriving DecidableEq, Repr

/-- The partition loop of `getMissingFilesRecursive`: walk `fileNames` in
order, adding present `.json` names to `fileNamesWithRefs`, skipping other
present names (leaf blobs), and adding absent names to
`fileNamesThatAreMissing`; both accumulators are insertion-ordered sets. -/
def partitionFiles (existingFiles : List String) :
    List String → List String × List String → List String × List String
  | [], acc => acc
  | fileName :: rest, (withRefs, missing) =>
    if fileName ∈ existingFiles then
      if endsWith fileName ".json" then
        partitionFiles existingFiles rest (insertOnce withRefs fileName, missing)
      else
        partitionFiles existingFiles rest (withRefs, missing)
    else
      partitionFiles existingFiles rest (withRefs, insertOnce missing fileName)

/-- Read and parse each listed manifest in order (`readFileWithRefs`),
accumulating the union of all referenced names (`allReferencedFileNames`)
as an insertion-ordered set; the first unparseable content aborts with the
`JSON.parse` error. -/
def collectRefs (store : Store) : List String → List String → Except RErr (List String)
  | [], acc => .ok acc
  | fileName :: rest, acc =>
    match store.content fileName with
    | .malformed raw => .error (.parse raw)
    | .manifest refs => collectRefs store rest (insertAll acc refs)

/-- The body of `getMissingFilesRecursive`: guard the level, partition the
input names against the snapshot, read the present manifests, recurse on
the union of their references when non-empty, and merge child-first.
Recursion is structural on `fuel`, kept equal to `11 - level` by the
wrapper below; the fuel-0 branch is unreachable then, because the level
guard fires first, and returns the same error. -/
def resolveAux (store : Store) (existingFiles : List String) :
    Nat → List String → Nat → Except RErr (MissingFilesResult × List String)
  | fuel, fileNames, level =>
    if level > 10 then .error .tooDeep
    else
      match fuel with
      | 0 => .error .tooDeep
      | fuel' + 1 =>
        let part := partitionFiles existingFiles fileNames ([], [])
        match collectRefs store part.1 [] with
        | .error e => .error e
        | .ok allReferencedFileNames =>
          if allReferencedFileNames.isEmpty then
            .ok (⟨part.2, fileNames⟩, part.1)
          else
            match resolveAux store existingFiles fuel' allReferencedFileNames (level + 1) with
            | .error e => .error e
            | .ok (child, childReads) =>
              .ok (⟨child.missingFiles ++ part.2, child.referencedFiles ++ fileNames⟩,
                   part.1 ++ childReads)

/-- `getMissingFilesRecursive(filePath, existingFiles, fileNames, level, stats)`:
returns the missing/referenced result together with the list of file names
whose content was read, in read order (the observable behind
`stats.readFiles`). -/
def getMissingFilesRecursive (store : Store) (existingFiles : List String)
    (fileNames : List String) (level : Nat) :
    Except RErr (MissingFilesResult × List String) :=
  resolveAux store existingFiles (11 - level) fileNames level

/-- `file.substr(0, len)` for a possibly negative JavaScript length:
a non-positive length yields the empty string.  Stated on the character
list of the string so that proofs can compute with it. -/
def jsSubstrFrom0 (s : String) (len : Int) : String :=
  ⟨s.data.take len.toNat⟩

/-- `file.substr(0, file.length - tempFileSuffix.length)`: the new name of
a root file on commit, computed positionally with no check that the name
actually ends with the suffix. -/
def permanentName (file tempFileSuffix : String) : String :=
  jsSubstrFrom0 file ((file.length : Int) - (tempFileSuffix.length : Int))

/-- State threaded through the commit branch's rename loop: the working
copies of `referencedFiles` and `existingFiles` plus the renames issued. -/
structure CommitState where
  referencedFiles : List String
  existingFiles : List String
  renames : List Action
deriving DecidableEq, Repr

/-- One iteration of `fileNames.map((file) => ...)` in the commit branch:
compute the permanent name, mirror the rename in both working sets
(`delete` old, `add` new), and issue the on-disk rename. -/
def renameStep (tempFileSuffix : String) (st : CommitState) (file : String) : CommitState :=
  let newName := permanentName file tempFileSuffix
  { referencedFiles := insertOnce (st.referencedFiles.erase file) newName
    existingFiles := insertOnce (st.existingFiles.erase file) newName
    renames := st.renames ++ [Action.rename file newName] }

/-- The working sets after the commit branch's rename loop: start from
`new Set(missingFilesResult.referencedFiles)` and the snapshot, and apply
every root's rename. -/
def commitState (existingFiles : List String) (missingFilesResult : MissingFilesResult)
    (fileNames : List String) (tempFileSuffix : String) : CommitState :=
  fileNames.foldl (renameStep tempFileSuffix)
    ⟨insertAll [] missingFilesResult.referencedFiles, existingFiles, []⟩

/-- The commit branch: rename every root, then prune
`difference(existingFiles, referencedFiles)`. -/
def commitActions (existingFiles : List String) (missingFilesResult : MissingFilesResult)
    (fileNames : List String) (tempFileSuffix : String) : List Action :=
  let st := commitState existingFiles missingFilesResult fileNames tempFileSuffix
  let pruneFiles := difference st.existingFiles st.referencedFiles
  st.renames ++ pruneFiles.map Action.delete

/-- `getMissingFilesForRootFiles(filesPath, fileNames, saveQueryParam,
tempFileSuffix)`: snapshot the directory, resolve, handle the save
parameter, and return the missing-file list together with the filesystem
mutations issued. -/
def getMissingFilesForRootFiles (store : Store) (fileNames : List String)
    (saveQueryParam : String) (tempFileSuffix : String) :
    Except RErr (List String × List Action) :=
  let existingFiles := dedupList store.listing
  match getMissingFilesRecursive store existingFiles fileNames 0 with
  | .error e => .error e
  | .ok (missingFilesResult, _reads) =>
    if saveQueryParam = "ifcomplete" ∨ saveQueryParam = "no" then
      if saveQueryParam = "ifcomplete" ∧ missingFilesResult.missingFiles = [] then
        .ok (missingFilesResult.missingFiles,
             commitActions existingFiles missingFilesResult fileNames tempFileSuffix)
      else
        .ok (missingFilesResult.missingFiles, fileNames.map Action.delete)
    else
      .ok (missingFilesResult.missingFiles, [])

/-- The mutations a call issued: none when it threw, because every error
is thrown by the resolver before the save-parameter handling runs. -/
def mutations (r : Except RErr (List String × List Action)) : List Action :=
  match r with
  | .error _ => []
  | .ok (_, acts) => acts

/-! ### Lemmas about the ordered-set primitives -/

theorem mem_insertOnce {l : List String} {x y : String} :
    y ∈ insertOnce l x ↔ y ∈ l ∨ y = x := by
  unfold insertOnce
  by_cases h : x ∈ l
  · simp only [if_pos h]
    constructor
    · exact Or.inl
    · rintro (hy | rfl) <;> [exact hy; exact h]
  · simp [if_neg h]

theorem nodup_insertOnce {l : List String} (x : String) (h : l.Nodup) :
    (insertOnce l x).Nodup := by
  unfold insertOnce
  by_cases hx : x ∈ l
  · simpa [if_pos hx]
  · rw [if_neg hx]
    refine h.append (List.nodup_singleton x) ?_
    intro a ha hax
    rw [List.mem_singleton] at hax
    exact hx (hax ▸ ha)

theorem mem_insertAll {xs l : List String} {y : String} :
    y ∈ insertAll l xs ↔ y ∈ l ∨ y ∈ xs := by
  induction xs generalizing l with
  | nil => simp [insertAll]
  | cons x rest ih =>
    show y ∈ insertAll (insertOnce l x) rest ↔ _
    rw [ih, mem_insertOnce]
    simp only [List.mem_cons]
    tauto

theorem nodup_insertAll {xs l : List String} (h : l.Nodup) :
    (insertAll l xs).Nodup := by
  induction xs generalizing l with
  | nil => exact h
  | cons x rest ih => exact ih (nodup_insertOnce x h)

theorem mem_dedupList {xs : List String} {y : String} :
    y ∈ dedupList xs ↔ y ∈ xs := by
  unfold dedupList; rw [mem_insertAll]; simp

theorem nodup_dedupList (xs : List String) : (dedupList xs).Nodup :=
  nodup_insertAll List.nodup_nil

theorem mem_difference {a b : List String} {x : String} (h : a.Nodup) :
    x ∈ difference a b ↔ x ∈ a ∧ x ∉ b := by
  induction b generalizing a with
  | nil => simp [difference]
  | cons y rest ih =>
    show x ∈ difference (a.erase y) rest ↔ _
    rw [ih (h.erase y), h.mem_erase_iff]
    simp only [List.mem_cons]
    tauto

/-! ### Lemmas about the partition of one level's input names -/

theorem partitionFiles_cons (existingFiles : List String) (f : String)
    (rest w m : List String) :
    partitionFiles existingFiles (f :: rest) (w, m)
      = if f ∈ existingFiles then
          (if endsWith f ".json" then partitionFiles existingFiles rest (insertOnce w f, m)
           else partitionFiles existingFiles rest (w, m))
        else partitionFiles existingFiles rest (w, insertOnce m f) :=
  rfl

/-- The partition loop builds exactly the insertion-ordered sets of the
present manifest-typed names and of the absent names, in input order. -/
theorem partitionFiles_eq (existingFiles : List String) (fileNames : List String)
    (w m : List String) :
    partitionFiles existingFiles fileNames (w, m)
      = (insertAll w (fileNames.filter fun f => decide (f ∈ existingFiles) && endsWith f ".json"),
         insertAll m (fileNames.filter fun f => !decide (f ∈ existingFiles))) := by
  induction fileNames generalizing w m with
  | nil => simp [partitionFiles, insertAll]
  | cons f rest ih =>
    rw [partitionFiles_cons]
    by_cases hf : f ∈ existingFiles
    · rw [if_pos hf]
      cases hj : endsWith f ".json" with
      | true =>
        rw [if_pos rfl, ih]
        simp [List.filter_cons, decide_eq_true hf, hj, insertAll]
      | false =>
        rw [if_neg (by simp), ih]
        simp [List.filter_cons, decide_eq_true hf, hj]
    · rw [if_neg hf, ih]
      simp [List.filter_cons, decide_eq_false hf, insertAll]

theorem mem_partition_withRefs {existingFiles fileNames : List String} {f : String} :
    f ∈ (partitionFiles existingFiles fileNames ([], [])).1
      ↔ f ∈ fileNames ∧ f ∈ existingFiles ∧ endsWith f ".json" = true := by
  rw [partitionFiles_eq]
  simp only [mem_insertAll, List.not_mem_nil, false_or, List.mem_filter,
    Bool.and_eq_true, decide_eq_true_eq]

theorem mem_partition_missing {existingFiles fileNames : List String} {f : String} :
    f ∈ (partitionFiles existingFiles fileNames ([], [])).2
      ↔ f ∈ fileNames ∧ f ∉ existingFiles := by
  rw [partitionFiles_eq]
  simp only [mem_insertAll, List.not_mem_nil, false_or, List.mem_filter,
    Bool.not_eq_true', decide_eq_false_iff_not]

/-! ### Lemmas about reading the manifests of one level -/

/-- A malformed content among the files to read makes the whole read step
fail with a parse error (whose payload is some offending raw text). -/
theorem collectRefs_error_of_malformed (store : Store) (files acc : List String)
    {f raw : String} (hf : f ∈ files) (hm : store.content f = .malformed raw) :
    ∃ c, collectRefs store files acc = .error (.parse c) := by
  induction files generalizing acc with
  | nil => cases hf
  | cons g rest ih =>
    cases hg : store.content g with
    | malformed c => exact ⟨c, by simp [collectRefs, hg]⟩
    | manifest refs =>
      rcases List.mem_cons.mp hf with rfl | hf'
      · rw [hg] at hm; cases hm
      · simpa [collectRefs, hg] using ih (insertAll acc refs) hf'

/-- Conversely, when the read step succeeds, none of the files it read
had malformed content. -/
theorem collectRefs_ok_not_malformed (store : Store) (files acc u : List String)
    (h : collectRefs store files acc = .ok u) :
    ∀ f ∈ files, ∀ raw, store.content f ≠ .malformed raw := by
  induction files generalizing acc with
  | nil => intro f hf; cases hf
  | cons g rest ih =>
    intro f hf raw hraw
    rw [collectRefs] at h
    split at h
    · cases h
    next refs hg =>
      rcases List.mem_cons.mp hf with rfl | hf'
      · rw [hg] at hraw; cases hraw
      · exact ih (insertAll acc refs) h f hf' raw hraw

/-! ### Unfolding and induction lemmas for the traversal -/

theorem resolveAux_too_deep (store : Store) (existingFiles : List String)
    (fuel : Nat) (fileNames : List String) {level : Nat} (h : level > 10) :
    resolveAux store existingFiles fuel fileNames level = .error .tooDeep := by
  cases fuel with
  | zero => rw [resolveAux, if_pos h]
  | succ fuel' => rw [resolveAux, if_pos h]

/-- One unfolding of the traversal when the level guard does not fire and
fuel remains. -/
theorem resolveAux_step (store : Store) (existingFiles : List String)
    (fuel : Nat) (fileNames : List String) {level : Nat} (h : ¬ level > 10) :
    resolveAux store existingFiles (fuel + 1) fileNames level
      = match collectRefs store (partitionFiles existingFiles fileNames ([], [])).1 [] with
        | .error e => .error e
        | .ok allReferencedFileNames =>
          if allReferencedFileNames.isEmpty then
            .ok (⟨(partitionFiles existingFiles fileNames ([], [])).2, fileNames⟩,
                 (partitionFiles existingFiles fileNames ([], [])).1)
          else
            match resolveAux store existingFiles fuel allReferencedFileNames (level + 1) with
            | .error e => .error e
            | .ok (child, childReads) =>
              .ok (⟨child.missingFiles ++ (partitionFiles existingFiles fileNames ([], [])).2,
                    child.referencedFiles ++ fileNames⟩,
                   (partitionFiles existingFiles fileNames ([], [])).1 ++ childReads) := by
  rw [resolveAux, if_neg h]

/-- Soundness of one run of the traversal: every file read is a present
manifest-typed name, and every absent input name of any level ends up in
the missing list. -/
theorem resolveAux_ok_props (store : Store) (existingFiles : List String) :
    ∀ (fuel : Nat) (fileNames : List String) (level : Nat)
      (res : MissingFilesResult) (reads : List String),
      resolveAux store existingFiles fuel fileNames level = .ok (res, reads) →
      (∀ f ∈ reads, f ∈ existingFiles ∧ endsWith f ".json" = true)
      ∧ (∀ f ∈ fileNames, f ∉ existingFiles → f ∈ res.missingFiles) := by
  intro fuel
  induction fuel with
  | zero =>
    intro fileNames level res reads h
    rw [resolveAux] at h
    split at h <;> cases h
  | succ fuel ih =>
    intro fileNames level res reads h
    by_cases hl : level > 10
    · rw [resolveAux_too_deep store existingFiles (fuel + 1) fileNames hl] at h; cases h
    · rw [resolveAux_step store existingFiles fuel fileNames hl] at h
      split at h
      · cases h
      next u hcr =>
        split at h
        · rw [Except.ok.injEq, Prod.mk.injEq] at h
          obtain ⟨hres, hreads⟩ := h
          subst hres hreads
          constructor
          · intro f hfr
            exact (mem_partition_withRefs.mp hfr).2
          · intro f hff hfa
            exact mem_partition_missing.mpr ⟨hff, hfa⟩
        · split at h
          · cases h
          next child childReads hrec =>
            rw [Except.ok.injEq, Prod.mk.injEq] at h
            obtain ⟨hres, hreads⟩ := h
            subst hres hreads
            obtain ⟨ihreads, ihmiss⟩ := ih u (level + 1) child childReads hrec
            constructor
            · intro f hfr
              rcases List.mem_append.mp hfr with hfp | hfc
              · exact (mem_partition_withRefs.mp hfp).2
              · exact ihreads f hfc
            · intro f hff hfa
              exact List.mem_append.mpr (Or.inr (mem_partition_missing.mpr ⟨hff, hfa⟩))

/-- A successful traversal never read a malformed content: whenever a
manifest with unparseable content is actually read, at whatever depth,
the traversal cannot return a result. -/
theorem resolveAux_ok_reads_parse (store : Store) (existingFiles : List String) :
    ∀ (fuel : Nat) (fileNames : List String) (level : Nat)
      (res : MissingFilesResult) (reads : List String),
      resolveAux store existingFiles fuel fileNames level = .ok (res, reads) →
      ∀ f ∈ reads, ∀ raw, store.content f ≠ .malformed raw := by
  intro fuel
  induction fuel with
  | zero =>
    intro fileNames level res reads h
    rw [resolveAux] at h
    split at h <;> cases h
  | succ fuel ih =>
    intro fileNames level res reads h
    by_cases hl : level > 10
    · rw [resolveAux_too_deep store existingFiles (fuel + 1) fileNames hl] at h; cases h
    · rw [resolveAux_step store existingFiles fuel fileNames hl] at h
      split at h
      · cases h
      next u hcr =>
        split at h
        · rw [Except.ok.injEq, Prod.mk.injEq] at h
          obtain ⟨hres, hreads⟩ := h
          subst hreads
          intro f hfr raw
          exact collectRefs_ok_not_malformed store _ [] u hcr f hfr raw
        · split at h
          · cases h
          next child childReads hrec =>
            rw [Except.ok.injEq, Prod.mk.injEq] at h
            obtain ⟨hres, hreads⟩ := h
            subst hreads
            intro f hfr raw
            rcases List.mem_append.mp hfr with hfp | hfc
            · exact collectRefs_ok_not_malformed store _ [] u hcr f hfp raw
            · exact ih u (level + 1) child childReads hrec f hfc raw

/-! ### Lemmas about the commit branch's rename loop -/

theorem commitFold_renames (tempFileSuffix : String) :
    ∀ (fileNames : List String) (st : CommitState),
      (fileNames.foldl (renameStep tempFileSuffix) st).renames
        = st.renames
            ++ fileNames.map (fun f => Action.rename f (permanentName f tempFileSuffix)) := by
  intro fileNames
  induction fileNames with
  | nil => simp
  | cons f rest ih =>
    intro st
    rw [List.foldl_cons, ih]
    simp [renameStep]

theorem commitFold_existing_nodup (tempFileSuffix : String) :
    ∀ (fileNames : List String) (st : CommitState),
      st.existingFiles.Nodup →
      ((fileNames.foldl (renameStep tempFileSuffix) st).existingFiles).Nodup := by
  intro fileNames
  induction fileNames with
  | nil => exact fun st h => h
  | cons f rest ih =>
    intro st h
    rw [List.foldl_cons]
    exact ih _ (nodup_insertOnce _ (h.erase f))

/-! ### The spec's notion of reachability

The spec's glossary defines the reference graph as "the full set of files
reachable by following `refs` links from the roots".  The following two
definitions state that notion (they are deliberately written from the
spec's words, to be compared with what the traversal computes, not from
the source). -/

/-- The outgoing reference links of a name in a store, following the
spec's data model: a present manifest-typed file contributes the values
of its `refs` mapping, everything else contributes none. -/
def refsOf (store : Store) (f : String) : List String :=
  if f ∈ store.listing ∧ endsWith f ".json" = true then
    match store.content f with
    | .manifest refs => refs
    | .malformed _ => []
  else []

/-- The names reachable from `roots` by following at most `fuel` `refs`
links. -/
def specReachableWithin (store : Store) : Nat → List String → List String
  | 0, roots => dedupList roots
  | n + 1, roots =>
    insertAll (dedupList roots) (specReachableWithin store n ((roots.map (refsOf store)).flatten))

/-! ### Concrete stores used as witnesses and counterexamples -/

/-- `a.json` and `b.json` both reference the absent `x`, at different
traversal depths (`x` is referenced at level 1 by `a.json` and at level 2
by `b.json`). -/
def storeDupMissing : Store :=
  { listing := ["a.json", "b.json"]
    content := fun f =>
      if f = "a.json" then .manifest ["x", "b.json"]
      else if f = "b.json" then .manifest ["x"]
      else .malformed "" }

/-- A staged publish exactly as in the spec's own commit scenario: the
root is staged as `root.json.tmp` (temp suffix `.tmp`), its manifest
references `a.json` and `b.json`, `a.json` references the blob `blob1`,
and every referenced file is present on disk. -/
def stagedRootStore : Store :=
  { listing := ["root.json.tmp", "a.json", "b.json", "blob1"]
    content := fun f =>
      if f = "root.json.tmp" then .manifest ["a.json", "b.json"]
      else if f = "a.json" then .manifest ["blob1"]
      else if f = "b.json" then .manifest []
      else .malformed "" }

/-- `stagedRootStore` after the commit's rename of `root.json.tmp` to
`root.json` (and before any pruning): the store in which the claim's
"reachable from the post-rename root set" is judged. -/
def postRenameStore : Store :=
  { listing := ["root.json", "a.json", "b.json", "blob1"]
    content := fun f =>
      if f = "root.json" then .manifest ["a.json", "b.json"]
      else if f = "a.json" then .manifest ["blob1"]
      else if f = "b.json" then .manifest []
      else .malformed "" }

/-- A store whose only file is the unparseable manifest `a.json`. -/
def malformedStoreA : Store :=
  { listing := ["a.json"]
    content := fun f => if f = "a.json" then .malformed "not-json" else .manifest [] }

/-- A store whose only file is the unparseable manifest `b.json`, with
the same raw content as `malformedStoreA`'s `a.json`. -/
def malformedStoreB : Store :=
  { listing := ["b.json"]
    content := fun f => if f = "b.json" then .malformed "not-json" else .manifest [] }

/-- A store whose well-formed root manifest `r.json` references the
unparseable manifest `m.json`: the malformed file is first encountered at
depth 1, through `refs`, not among the roots. -/
def deepMalformedStore : Store :=
  { listing := ["r.json", "m.json"]
    content := fun f =>
      if f = "r.json" then .manifest ["m.json"]
      else if f = "m.json" then .malformed "not-json"
      else .manifest [] }

/-- A complete staged publish used to exercise the commit branch: the
root manifest `root.json` references the present blob `b`. -/
def commitDemoStore : Store :=
  { listing := ["root.json", "b"]
    content := fun f =>
      if f = "root.json" then .manifest ["b"] else .manifest [] }

/-- The `i`-th file of a reference chain. -/
def chainName (i : Nat) : String :=
  "f" ++ toString i ++ ".json"

/-- A reference chain of `n` links: files `f0.json … fn.json`, each
referencing the next, the last referencing nothing; all present. -/
def chainStore (n : Nat) : Store :=
  { listing := (List.range (n + 1)).map chainName
    content := fun f =>
      match ((List.range (n + 1)).map
          (fun i => (chainName i, if i < n then [chainName (i + 1)] else []))).lookup f with
      | some refs => .manifest refs
      | none => .malformed "" }

/-- A manifest that references itself: the smallest reference cycle. -/
def cycleStore : Store :=
  { listing := ["c.json"]
    content := fun f => if f = "c.json" then .manifest ["c.json"] else .malformed "" }

/-! ### The claims -/

/-- C1: evaluation of the traversal on a store in which two manifests at
different depths reference the same absent name `x` (`a.json` at level 1,
`b.json`'s expansion at level 2).  The returned missing list is
`["x", "x"]` and the referenced list also repeats `x`: deduplication
happens only within one traversal level, so the claim's "no duplicate
entries in either list, even at different traversal depths" fails on the
code (and contradicts the source comment "we only want to mark the same
filename as missing once"). -/
theorem missingFiles_duplicate_across_levels :
    getMissingFilesForRootFiles storeDupMissing ["a.json"] "verify" "" = .ok (["x", "x"], [])
    ∧ getMissingFilesRecursive storeDupMissing (dedupList storeDupMissing.listing) ["a.json"] 0
        = .ok (⟨["x", "x"], ["x", "x", "b.json", "a.json"]⟩, ["a.json", "b.json"])
    ∧ ¬ (["x", "x"] : List String).Nodup
    ∧ ¬ (["x", "x", "b.json", "a.json"] : List String).Nodup := by
  refine ⟨by decide, by decide, by decide, by decide⟩

/-- C2: a reference chain of exactly 10 levels resolves successfully,
while a chain of 11 levels, and a manifest cycle, make the whole
operation fail with the too-deep error under every save policy, with no
filesystem mutation issued. -/
theorem depth_bound_ten_ok_eleven_too_deep :
    getMissingFilesForRootFiles (chainStore 10) [chainName 0] "verifyonly" "" = .ok ([], [])
    ∧ (∀ saveQueryParam tempFileSuffix : String,
        getMissingFilesForRootFiles (chainStore 11) [chainName 0] saveQueryParam tempFileSuffix
          = .error .tooDeep
        ∧ mutations (getMissingFilesForRootFiles (chainStore 11) [chainName 0]
            saveQueryParam tempFileSuffix) = [])
    ∧ (∀ saveQueryParam tempFileSuffix : String,
        getMissingFilesForRootFiles cycleStore ["c.json"] saveQueryParam tempFileSuffix
          = .error .tooDeep
        ∧ mutations (getMissingFilesForRootFiles cycleStore ["c.json"]
            saveQueryParam tempFileSuffix) = []) := by
  refine ⟨by decide, ?_, ?_⟩
  · intro saveQueryParam tempFileSuffix
    have hres : getMissingFilesRecursive (chainStore 11) (dedupList (chainStore 11).listing)
        [chainName 0] 0 = .error .tooDeep := by decide
    constructor
    · simp [getMissingFilesForRootFiles, hres]
    · simp [getMissingFilesForRootFiles, hres, mutations]
  · intro saveQueryParam tempFileSuffix
    have hres : getMissingFilesRecursive cycleStore (dedupList cycleStore.listing)
        ["c.json"] 0 = .error .tooDeep := by decide
    constructor
    · simp [getMissingFilesForRootFiles, hres]
    · simp [getMissingFilesForRootFiles, hres, mutations]

/-- C3 (counterexample): on the spec's own commit scenario — root staged
as `root.json.tmp` with suffix `.tmp`, every referenced file present —
the commit deletes `a.json`, `b.json` and `blob1`, although `a.json` is a
pre-existing file reachable from the post-rename root `root.json`.  The
staged root does not end in `.json`, so the traversal never parses it and
its closure never enters the referenced set. -/
theorem ifcomplete_commit_deletes_reachable_file :
    getMissingFilesForRootFiles stagedRootStore ["root.json.tmp"] "ifcomplete" ".tmp"
      = .ok ([], [Action.rename "root.json.tmp" "root.json",
                  Action.delete "a.json", Action.delete "b.json", Action.delete "blob1"])
    ∧ "a.json" ∈ specReachableWithin postRenameStore 5 ["root.json"]
    ∧ "a.json" ∈ stagedRootStore.listing
    ∧ Action.delete "a.json"
        ∈ mutations (getMissingFilesForRootFiles stagedRootStore ["root.json.tmp"]
            "ifcomplete" ".tmp") := by
  refine ⟨by decide, by decide, by decide, by decide⟩

/-- C6 (counterexample): two stores whose unparseable manifests have
different names but the same raw content produce the very same error
value, so the parse error does not identify the offending file name (the
source rethrows `JSON.parse`'s `SyntaxError` unwrapped, and that error is
a function of the content alone). -/
theorem parse_error_carries_no_filename :
    getMissingFilesForRootFiles malformedStoreA ["a.json"] "verify" "" = .error (.parse "not-json")
    ∧ getMissingFilesForRootFiles malformedStoreB ["b.json"] "verify" "" = .error (.parse "not-json")
    ∧ ("a.json" : String) ≠ "b.json" := by
  refine ⟨by decide, by decide, by decide⟩

/-- C9: the permanent name of a root is computed positionally as the name
with its last `tempFileSuffix.length` characters removed — with no check
that the name ends with the suffix — and a name shorter than the suffix
is mapped to the empty string; the commit's rename loop issues exactly
this rename for every root. -/
theorem permanentName_positional_strip (file tempFileSuffix : String) :
    permanentName file tempFileSuffix
        = ⟨file.data.take (file.length - tempFileSuffix.length)⟩
    ∧ (endsWith file tempFileSuffix = false →
        permanentName file tempFileSuffix
          = ⟨file.data.take (file.length - tempFileSuffix.length)⟩)
    ∧ (file.length < tempFileSuffix.length → permanentName file tempFileSuffix = "")
    ∧ (∀ st : CommitState, (renameStep tempFileSuffix st file).renames
        = st.renames ++ [Action.rename file (permanentName file tempFileSuffix)]) := by
  have h1 : permanentName file tempFileSuffix
      = ⟨file.data.take (file.length - tempFileSuffix.length)⟩ := by
    unfold permanentName jsSubstrFrom0
    have h2 : ((file.length : Int) - (tempFileSuffix.length : Int)).toNat
        = file.length - tempFileSuffix.length := by omega
    rw [h2]
  refine ⟨h1, fun _ => h1, ?_, fun st => rfl⟩
  intro hlt
  rw [h1]
  have h0 : file.length - tempFileSuffix.length = 0 := by omega
  rw [h0, List.take_zero]

/-- C3 (amended): when the policy is `ifcomplete` and the resolved
missing-file list is empty, the operation renames every root file to its
permanent name obtained by stripping the temp suffix, and deletes exactly
the files present in the updated working snapshot but absent from the
updated referenced set (the traversal's `referencedFiles` with the root
renames applied); every file in that updated referenced set is spared.
(The spec's "reachable from the post-rename root set" does not hold in
general — see the counterexample — because a root that does not end in
`.json` is never parsed, so the referenced set can under-approximate
reachability.) -/
theorem ifcomplete_commit_renames_and_prunes
    (store : Store) (fileNames : List String) (tempFileSuffix : String)
    (res : MissingFilesResult) (reads : List String)
    (hres : getMissingFilesRecursive store (dedupList store.listing) fileNames 0 = .ok (res, reads))
    (hmiss : res.missingFiles = []) :
    getMissingFilesForRootFiles store fileNames "ifcomplete" tempFileSuffix
      = .ok ([], commitActions (dedupList store.listing) res fileNames tempFileSuffix)
    ∧ (commitState (dedupList store.listing) res fileNames tempFileSuffix).renames
        = fileNames.map (fun f => Action.rename f (permanentName f tempFileSuffix))
    ∧ commitActions (dedupList store.listing) res fileNames tempFileSuffix
        = (commitState (dedupList store.listing) res fileNames tempFileSuffix).renames
          ++ (difference
                (commitState (dedupList store.listing) res fileNames tempFileSuffix).existingFiles
                (commitState (dedupList store.listing) res fileNames tempFileSuffix).referencedFiles).map
              Action.delete
    ∧ (∀ f, f ∈ difference
              (commitState (dedupList store.listing) res fileNames tempFileSuffix).existingFiles
              (commitState (dedupList store.listing) res fileNames tempFileSuffix).referencedFiles
          ↔ f ∈ (commitState (dedupList store.listing) res fileNames tempFileSuffix).existingFiles
            ∧ f ∉ (commitState (dedupList store.listing) res fileNames tempFileSuffix).referencedFiles) := by
  have hmain : getMissingFilesForRootFiles store fileNames "ifcomplete" tempFileSuffix
      = .ok (res.missingFiles,
             commitActions (dedupList store.listing) res fileNames tempFileSuffix) := by
    simp only [getMissingFilesForRootFiles, hres]
    rw [if_pos (Or.inl trivial), if_pos ⟨trivial, hmiss⟩]
  refine ⟨by rw [hmain, hmiss], ?_, rfl, ?_⟩
  · rw [commitState, commitFold_renames]
    simp
  · intro f
    exact mem_difference
      (commitFold_existing_nodup tempFileSuffix fileNames _ (nodup_dedupList store.listing))

/-- C3 witness: the commit theorem applied to a complete staged publish
(root `root.json` referencing the present blob `b`, empty temp suffix). -/
theorem ifcomplete_commit_renames_and_prunes_witness :
    getMissingFilesForRootFiles commitDemoStore ["root.json"] "ifcomplete" ""
      = .ok ([], commitActions (dedupList commitDemoStore.listing)
               ⟨[], ["b", "root.json"]⟩ ["root.json"] "")
    ∧ (commitState (dedupList commitDemoStore.listing)
         ⟨[], ["b", "root.json"]⟩ ["root.json"] "").renames
        = ["root.json"].map (fun f => Action.rename f (permanentName f ""))
    ∧ commitActions (dedupList commitDemoStore.listing)
        ⟨[], ["b", "root.json"]⟩ ["root.json"] ""
        = (commitState (dedupList commitDemoStore.listing)
             ⟨[], ["b", "root.json"]⟩ ["root.json"] "").renames
          ++ (difference
                (commitState (dedupList commitDemoStore.listing)
                  ⟨[], ["b", "root.json"]⟩ ["root.json"] "").existingFiles
                (commitState (dedupList commitDemoStore.listing)
                  ⟨[], ["b", "root.json"]⟩ ["root.json"] "").referencedFiles).map
              Action.delete
    ∧ (∀ f, f ∈ difference
              (commitState (dedupList commitDemoStore.listing)
                ⟨[], ["b", "root.json"]⟩ ["root.json"] "").existingFiles
              (commitState (dedupList commitDemoStore.listing)
                ⟨[], ["b", "root.json"]⟩ ["root.json"] "").referencedFiles
          ↔ f ∈ (commitState (dedupList commitDemoStore.listing)
                  ⟨[], ["b", "root.json"]⟩ ["root.json"] "").existingFiles
            ∧ f ∉ (commitState (dedupList commitDemoStore.listing)
                    ⟨[], ["b", "root.json"]⟩ ["root.json"] "").referencedFiles) :=
  ifcomplete_commit_renames_and_prunes commitDemoStore ["root.json"] ""
    ⟨[], ["b", "root.json"]⟩ ["root.json"] (by decide) rfl

/-- C4: when the policy is `no`, or the policy is `ifcomplete` with a
non-empty missing list, the operation issues exactly one deletion per
root file name and no other mutation. -/
theorem rollback_deletes_exactly_roots
    (store : Store) (fileNames : List String) (saveQueryParam tempFileSuffix : String)
    (res : MissingFilesResult) (reads : List String)
    (hres : getMissingFilesRecursive store (dedupList store.listing) fileNames 0 = .ok (res, reads))
    (hpol : saveQueryParam = "no" ∨ (saveQueryParam = "ifcomplete" ∧ res.missingFiles ≠ [])) :
    getMissingFilesForRootFiles store fileNames saveQueryParam tempFileSuffix
      = .ok (res.missingFiles, fileNames.map Action.delete)
    ∧ (∀ f ∈ fileNames, Action.delete f
        ∈ mutations (getMissingFilesForRootFiles store fileNames saveQueryParam tempFileSuffix))
    ∧ (∀ a ∈ mutations (getMissingFilesForRootFiles store fileNames saveQueryParam tempFileSuffix),
        ∃ f ∈ fileNames, a = Action.delete f) := by
  have hmain : getMissingFilesForRootFiles store fileNames saveQueryParam tempFileSuffix
      = .ok (res.missingFiles, fileNames.map Action.delete) := by
    rcases hpol with rfl | ⟨rfl, hne⟩
    · simp only [getMissingFilesForRootFiles, hres]
      rw [if_pos (Or.inr trivial), if_neg (fun hc => absurd hc.1 (by decide))]
    · simp only [getMissingFilesForRootFiles, hres]
      rw [if_pos (Or.inl trivial), if_neg (fun hc => hne hc.2)]
  refine ⟨hmain, ?_, ?_⟩
  · intro f hf
    rw [hmain]
    simp only [mutations]
    exact List.mem_map_of_mem _ hf
  · intro a ha
    rw [hmain] at ha
    simp only [mutations] at ha
    rcases List.mem_map.mp ha with ⟨f, hf, rfl⟩
    exact ⟨f, hf, rfl⟩

/-- C4 witness: the rollback theorem applied to the store whose root
`a.json` references the absent `x`, under policy `no`. -/
theorem rollback_deletes_exactly_roots_witness :
    getMissingFilesForRootFiles storeDupMissing ["a.json"] "no" ".tmp"
      = .ok (["x", "x"], [Action.delete "a.json"])
    ∧ (∀ f ∈ ["a.json"], Action.delete f
        ∈ mutations (getMissingFilesForRootFiles storeDupMissing ["a.json"] "no" ".tmp"))
    ∧ (∀ a ∈ mutations (getMissingFilesForRootFiles storeDupMissing ["a.json"] "no" ".tmp"),
        ∃ f ∈ ["a.json"], a = Action.delete f) :=
  rollback_deletes_exactly_roots storeDupMissing ["a.json"] "no" ".tmp"
    ⟨["x", "x"], ["x", "x", "b.json", "a.json"]⟩ ["a.json", "b.json"]
    (by decide) (Or.inl rfl)

/-- C5: a save policy other than `ifcomplete` and `no` issues no
mutation and returns the resolver's missing list; and whatever the
policy, a successful call returns exactly the resolver's missing list. -/
theorem verify_only_no_mutation
    (store : Store) (fileNames : List String) (saveQueryParam tempFileSuffix : String)
    (res : MissingFilesResult) (reads : List String)
    (hres : getMissingFilesRecursive store (dedupList store.listing) fileNames 0
      = .ok (res, reads)) :
    (saveQueryParam ≠ "ifcomplete" → saveQueryParam ≠ "no" →
      getMissingFilesForRootFiles store fileNames saveQueryParam tempFileSuffix
        = .ok (res.missingFiles, []))
    ∧ ∃ acts, getMissingFilesForRootFiles store fileNames saveQueryParam tempFileSuffix
        = .ok (res.missingFiles, acts) := by
  have hv : ∀ (_ : saveQueryParam ≠ "ifcomplete") (_ : saveQueryParam ≠ "no"),
      getMissingFilesForRootFiles store fileNames saveQueryParam tempFileSuffix
        = .ok (res.missingFiles, []) := by
    intro h1 h2
    simp only [getMissingFilesForRootFiles, hres]
    rw [if_neg (fun hc => hc.elim h1 h2)]
  refine ⟨hv, ?_⟩
  by_cases h1 : saveQueryParam = "ifcomplete"
  · subst h1
    by_cases hm : res.missingFiles = []
    · refine ⟨commitActions (dedupList store.listing) res fileNames tempFileSuffix, ?_⟩
      simp only [getMissingFilesForRootFiles, hres]
      rw [if_pos (Or.inl trivial), if_pos ⟨trivial, hm⟩]
    · refine ⟨fileNames.map Action.delete, ?_⟩
      simp only [getMissingFilesForRootFiles, hres]
      rw [if_pos (Or.inl trivial), if_neg (fun hc => hm hc.2)]
  · by_cases h2 : saveQueryParam = "no"
    · subst h2
      refine ⟨fileNames.map Action.delete, ?_⟩
      simp only [getMissingFilesForRootFiles, hres]
      rw [if_pos (Or.inr trivial), if_neg (fun hc => h1 hc.1)]
    · exact ⟨[], hv h1 h2⟩

/-- C5 witness: the verify-only theorem applied to the duplicate-missing
store under the policy string `verify`. -/
theorem verify_only_no_mutation_witness :
    (("verify" : String) ≠ "ifcomplete" → ("verify" : String) ≠ "no" →
      getMissingFilesForRootFiles storeDupMissing ["a.json"] "verify" ".tmp"
        = .ok (["x", "x"], []))
    ∧ ∃ acts, getMissingFilesForRootFiles storeDupMissing ["a.json"] "verify" ".tmp"
        = .ok (["x", "x"], acts) :=
  verify_only_no_mutation storeDupMissing ["a.json"] "verify" ".tmp"
    ⟨["x", "x"], ["x", "x", "b.json", "a.json"]⟩ ["a.json", "b.json"] (by decide)

/-- C6 (amended): any unparseable manifest encountered by the traversal,
at any depth, aborts the whole operation with a parse-kind error — an
error kind distinct from the too-deep error — under every save policy,
with no partial result and no mutation; the error does not identify the
offending file name (see the counterexample).  Conjunct by conjunct:
(a) any resolver error is returned whole by the operation, with no
mutation issued; (b) at every level within the depth bound, a malformed
manifest among that level's input names aborts the level with a parse
error; (c) an error from the child level propagates unchanged through a
level that recursed, so the abort of (b) at depth `k` reaches level 0;
(d) conversely a traversal that returns a result read no malformed
content at any depth — an encountered unparseable manifest never yields
partial credit; (e) the parse error is distinguishable from the
too-deep error. -/
theorem malformed_manifest_aborts
    (store : Store) (fileNames : List String) (saveQueryParam tempFileSuffix : String) :
    (∀ e : RErr,
      getMissingFilesRecursive store (dedupList store.listing) fileNames 0 = .error e →
      getMissingFilesForRootFiles store fileNames saveQueryParam tempFileSuffix = .error e
      ∧ mutations (getMissingFilesForRootFiles store fileNames saveQueryParam tempFileSuffix)
          = [])
    ∧ (∀ (existingFiles names : List String) (level : Nat) (f raw : String),
        level ≤ 10 → f ∈ names → f ∈ existingFiles → endsWith f ".json" = true →
        store.content f = .malformed raw →
        ∃ c, getMissingFilesRecursive store existingFiles names level = .error (.parse c))
    ∧ (∀ (existingFiles names u : List String) (level : Nat) (e : RErr),
        level ≤ 10 →
        collectRefs store (partitionFiles existingFiles names ([], [])).1 [] = .ok u →
        u ≠ [] →
        getMissingFilesRecursive store existingFiles u (level + 1) = .error e →
        getMissingFilesRecursive store existingFiles names level = .error e)
    ∧ (∀ (res : MissingFilesResult) (reads : List String),
        getMissingFilesRecursive store (dedupList store.listing) fileNames 0 = .ok (res, reads) →
        ∀ f ∈ reads, ∀ raw, store.content f ≠ .malformed raw)
    ∧ (∀ c, RErr.parse c ≠ RErr.tooDeep) := by
  refine ⟨?_, ?_, ?_, ?_, fun c h => RErr.noConfusion h⟩
  · intro e he
    constructor
    · simp [getMissingFilesForRootFiles, he]
    · simp [getMissingFilesForRootFiles, he, mutations]
  · intro existingFiles names level f raw hlev hf hex hjson hmal
    have hpart : f ∈ (partitionFiles existingFiles names ([], [])).1 :=
      mem_partition_withRefs.mpr ⟨hf, hex, hjson⟩
    obtain ⟨c, hc⟩ := collectRefs_error_of_malformed store
      (partitionFiles existingFiles names ([], [])).1 [] hpart hmal
    refine ⟨c, ?_⟩
    unfold getMissingFilesRecursive
    rw [show 11 - level = (10 - level) + 1 by omega,
        resolveAux_step store existingFiles (10 - level) names (by omega)]
    simp only [hc]
  · intro existingFiles names u level e hlev hu hne hchild
    unfold getMissingFilesRecursive at hchild ⊢
    rw [show 11 - (level + 1) = 10 - level by omega] at hchild
    rw [show 11 - level = (10 - level) + 1 by omega,
        resolveAux_step store existingFiles (10 - level) names (by omega)]
    rcases u with _ | ⟨a, us⟩
    · exact absurd rfl hne
    · simp only [hu, List.isEmpty_cons, Bool.false_eq_true, if_false, hchild]
  · intro res reads h
    unfold getMissingFilesRecursive at h
    exact resolveAux_ok_reads_parse store (dedupList store.listing) (11 - 0) fileNames 0
      res reads h

/-- C6 witness: on the store whose root `r.json` references the
unparseable manifest `m.json` — the malformed file is encountered at
depth 1, through `refs`, not among the roots — the whole operation
aborts with the parse error of `m.json`'s content and issues no
mutation, even under the commit policy; obtained by applying the abort
theorem's propagation part to the concrete resolver run. -/
theorem malformed_manifest_aborts_witness :
    getMissingFilesForRootFiles deepMalformedStore ["r.json"] "ifcomplete" ".tmp"
      = .error (.parse "not-json")
    ∧ mutations (getMissingFilesForRootFiles deepMalformedStore ["r.json"] "ifcomplete" ".tmp")
      = [] :=
  (malformed_manifest_aborts deepMalformedStore ["r.json"] "ifcomplete" ".tmp").1
    (.parse "not-json") (by decide)

/-- C7: at a recursion level that does not trip the depth guard, whose
manifest reads succeed with a non-empty union of references, and whose
recursive call succeeds, the level's result appends the level's own
missing names after the child's missing names and the level's own input
names after the child's referenced names, and the level's reads come
before the child's. -/
theorem merge_child_before_parent
    (store : Store) (existingFiles fileNames : List String) (level : Nat)
    (hlevel : level ≤ 10) (u : List String)
    (hu : collectRefs store (partitionFiles existingFiles fileNames ([], [])).1 [] = .ok u)
    (hne : u ≠ [])
    (child : MissingFilesResult) (childReads : List String)
    (hchild : getMissingFilesRecursive store existingFiles u (level + 1) = .ok (child, childReads)) :
    getMissingFilesRecursive store existingFiles fileNames level
      = .ok (⟨child.missingFiles ++ (partitionFiles existingFiles fileNames ([], [])).2,
             child.referencedFiles ++ fileNames⟩,
             (partitionFiles existingFiles fileNames ([], [])).1 ++ childReads) := by
  unfold getMissingFilesRecursive at hchild ⊢
  have hfe2 : 11 - (level + 1) = 10 - level := by omega
  rw [hfe2] at hchild
  rw [show 11 - level = (10 - level) + 1 by omega,
      resolveAux_step store existingFiles (10 - level) fileNames (by omega)]
  rcases u with _ | ⟨a, us⟩
  · exact absurd rfl hne
  · simp only [hu, List.isEmpty_cons, Bool.false_eq_true, if_false, hchild]

/-- C7 witness: the merge theorem applied at level 0 of the
duplicate-missing store, whose child call at level 1 returns missing
`["x", "x"]` and referenced `["x", "x", "b.json"]`. -/
theorem merge_child_before_parent_witness :
    getMissingFilesRecursive storeDupMissing (dedupList storeDupMissing.listing) ["a.json"] 0
      = .ok (⟨(⟨["x", "x"], ["x", "x", "b.json"]⟩ : MissingFilesResult).missingFiles
               ++ (partitionFiles (dedupList storeDupMissing.listing) ["a.json"] ([], [])).2,
             (⟨["x", "x"], ["x", "x", "b.json"]⟩ : MissingFilesResult).referencedFiles
               ++ ["a.json"]⟩,
             (partitionFiles (dedupList storeDupMissing.listing) ["a.json"] ([], [])).1
               ++ ["b.json"]) :=
  merge_child_before_parent storeDupMissing (dedupList storeDupMissing.listing) ["a.json"] 0
    (by omega) ["x", "b.json"] (by decide) (by decide)
    ⟨["x", "x"], ["x", "x", "b.json"]⟩ ["b.json"] (by decide)

/-- C8: in a successful traversal the deduplicated input names of a level
are partitioned against the snapshot — present `.json` names become the
read set, absent names the missing set — every file ever read is a
present `.json` name (so leaves and absent names are never read or
parsed), and every absent input name of every level is reported
missing. -/
theorem level_partition_and_reads
    (store : Store) (existingFiles fileNames : List String) (level : Nat)
    (res : MissingFilesResult) (reads : List String)
    (h : getMissingFilesRecursive store existingFiles fileNames level = .ok (res, reads)) :
    partitionFiles existingFiles fileNames ([], [])
      = (insertAll [] (fileNames.filter fun f =>
            decide (f ∈ existingFiles) && endsWith f ".json"),
         insertAll [] (fileNames.filter fun f => !decide (f ∈ existingFiles)))
    ∧ (∀ f ∈ reads, f ∈ existingFiles ∧ endsWith f ".json" = true)
    ∧ (∀ f ∈ fileNames, f ∉ existingFiles → f ∈ res.missingFiles) := by
  unfold getMissingFilesRecursive at h
  obtain ⟨h1, h2⟩ :=
    resolveAux_ok_props store existingFiles (11 - level) fileNames level res reads h
  exact ⟨partitionFiles_eq existingFiles fileNames [] [], h1, h2⟩

/-- C8 witness: the partition-and-reads theorem applied to the
duplicate-missing store at level 0, where the traversal reads `a.json`
and `b.json` and reports the absent `x`. -/
theorem level_partition_and_reads_witness :
    partitionFiles (dedupList storeDupMissing.listing) ["a.json"] ([], [])
      = (insertAll [] (["a.json"].filter fun f =>
            decide (f ∈ dedupList storeDupMissing.listing) && endsWith f ".json"),
         insertAll [] (["a.json"].filter fun f =>
            !decide (f ∈ dedupList storeDupMissing.listing)))
    ∧ (∀ f ∈ ["a.json", "b.json"],
        f ∈ dedupList storeDupMissing.listing ∧ endsWith f ".json" = true)
    ∧ (∀ f ∈ ["a.json"], f ∉ dedupList storeDupMissing.listing →
        f ∈ (⟨["x", "x"], ["x", "x", "b.json", "a.json"]⟩ : MissingFilesResult).missingFiles) :=
  level_partition_and_reads storeDupMissing (dedupList storeDupMissing.listing) ["a.json"] 0
    ⟨["x", "x"], ["x", "x", "b.json", "a.json"]⟩ ["a.json", "b.json"] (by decide)

/-- C10: the whole operation is a deterministic function of the directory
listing, the file contents, the root list, the save policy and the temp
suffix: two stores that agree on listing and contents produce identical
results (missing list and mutations alike). -/
theorem resolution_deterministic
    (s1 s2 : Store) (fileNames : List String) (saveQueryParam tempFileSuffix : String)
    (hlist : s1.listing = s2.listing) (hcontent : ∀ f, s1.content f = s2.content f) :
    getMissingFilesForRootFiles s1 fileNames saveQueryParam tempFileSuffix
      = getMissingFilesForRootFiles s2 fileNames saveQueryParam tempFileSuffix := by
  obtain ⟨l1, c1⟩ := s1
  obtain ⟨l2, c2⟩ := s2
  have hl : l1 = l2 := hlist
  have hcf : c1 = c2 := funext hcontent
  subst hl; subst hcf
  rfl

/-- C10 witness: determinism applied to the duplicate-missing store. -/
theorem resolution_deterministic_witness :
    getMissingFilesForRootFiles storeDupMissing ["a.json"] "verify" ".tmp"
      = getMissingFilesForRootFiles storeDupMissing ["a.json"] "verify" ".tmp" :=
  resolution_deterministic storeDupMissing storeDupMissing ["a.json"] "verify" ".tmp"
    rfl (fun _ => rfl)

end ApiServer
